import Mathlib

/-!
Verification of the segmentation-and-merge pipeline of `lnPi/segment.py`.

The development shallowly embeds the algorithmic content of the source file:

* `peak_local_max_adaptive` (segment.py lines 30-111): the retry loop over
  `min_distance` candidates and the `errors` policy branch.  The external
  primitive `skimage.feature.peak_local_max` is abstracted as a parameter
  `plm : ℕ → List α` giving, for each `min_distance` value, the list of peaks
  found on the (fixed) normalized data; `num_peaks_max = None` becomes `⊤`
  in `WithTop ℕ`.  The boolean in the result records whether a warning was
  emitted on the run (the source can only warn through the
  `elif errors in ('raise', 'ignore')` branch, see below).
* `Segmenter.watershed` (lines 189-211): the kwargs-merging call
  `dict(self.watershed_kws, connectivity=connectivity, *kwargs)`, which
  passes the *keys* of `kwargs` as extra positional arguments to `dict`.
* `FreeEnergylnPi` (lines 234-464): region masks over a finite domain of
  grid points, thick boundaries, boundary overlaps, the `w_tran`/`w_min`
  matrices and the `merge_regions` loop.  Numeric field values live in an
  arbitrary linearly ordered additive commutative group `α` (the source
  uses IEEE floats; every concrete instance below uses integer values,
  which are exactly representable floats); `np.inf` becomes `⊤ : WithTop α`.
  Python dict/KeyError behaviour of the `mapping` structure is made explicit:
  the loop returns `Except Unit _`, erring exactly where the source raises.
  The in-place `|=` mutation of `mapping[idx_keep]` (which aliases
  `self._masks[idx_keep]`) is modelled by the `maskOf` component of the
  state: the value of `maskOf` after the run is the content of the
  instance's stored `_masks` after `merge_regions` returns.
-/

/-! ## Adaptive peak finder (segment.py lines 30-111) -/

/-- The `for md in min_distance` loop of `peak_local_max_adaptive`
(lines 81-93): run `feature.peak_local_max` at each candidate radius in
order and stop at the first whose peak count is `≤ num_peaks_max`; when the
candidate list is exhausted the peaks of the last radius remain bound to
`idx`.  An empty candidate list leaves `idx`/`n` unbound in the source
(a `NameError` later), modelled as `none`. -/
def adaptiveSelect {α : Type} (plm : ℕ → List α) (num_peaks_max : WithTop ℕ) :
    List ℕ → Option (List α)
  | [] => none
  | md :: rest =>
    if ((plm md).length : WithTop ℕ) ≤ num_peaks_max then some (plm md)
    else
      match rest with
      | [] => some (plm md)
      | md2 :: rest2 => adaptiveSelect plm num_peaks_max (md2 :: rest2)

/-- `peak_local_max_adaptive` (lines 30-111), with the external
`feature.peak_local_max` abstracted as `plm`.  After the selection loop the
source runs (lines 95-103):

    if n > num_peaks_max:
        if errors == 'ignore':
            pass
        elif errors in ('raise', 'ignore'):
            message = ...
            if errors == 'raise':
                raise RuntimeError(message)
            else:
                warning.warn(message)

and then returns `idx`.  The misspelt `warning.warn` line is unreachable:
its branch requires `errors ∈ {'raise', 'ignore'}` yet `errors ≠ 'raise'`
and `errors ≠ 'ignore'`.  The boolean of the result records whether a
warning was emitted; no path of the source emits one.  The final
`idx = tuple(idx.T)` reshaping (and the `indices=False` conversion to a
marker array) only changes the presentation of the peak list and is not
modelled. -/
def overflowCheck {α : Type} (errors : String) (num_peaks_max : WithTop ℕ)
    (idx : List α) : Except String (List α × Bool) :=
  if (idx.length : WithTop ℕ) ≤ num_peaks_max then Except.ok (idx, false)
  else if errors = "ignore" then Except.ok (idx, false)
  else if errors = "raise" ∨ errors = "ignore" then
    if errors = "raise" then Except.error "RuntimeError: maxima found greater than num_peaks_max"
    else Except.error "NameError: warning"
  else Except.ok (idx, false)

def peak_local_max_adaptive {α : Type} (plm : ℕ → List α) (min_distance : List ℕ)
    (num_peaks_max : WithTop ℕ) (errors : String) : Except String (List α × Bool) :=
  match adaptiveSelect plm num_peaks_max min_distance with
  | none => Except.error "NameError: n"
  | some idx => overflowCheck errors num_peaks_max idx

/-- A `peak_local_max` stand-in that finds two peaks at every radius. -/
def plmOverflow : ℕ → List ℕ := fun _ => [0, 1]

/-- A `peak_local_max` stand-in for the C9 witness: 2 peaks at radius 1,
a single peak at any other radius. -/
def plmWitness : ℕ → List ℕ := fun d => if d = 1 then [0, 1] else [0]

/-! ## `Segmenter.watershed` (segment.py lines 189-211) -/

/-- Set key `k` to `v` in a keyword dictionary (last write wins). -/
def dictSet {V : Type} (l : List (String × V)) (k : String) (v : V) : List (String × V) :=
  l.filter (fun kv => kv.1 ≠ k) ++ [(k, v)]

/-- The Python call `dict(base, *extraPositional, **kw)`: the builtin `dict`
accepts at most one positional argument, so any extra positional argument
raises `TypeError: dict expected at most 1 argument`; otherwise it copies
`base` and applies the keyword updates. -/
def dictCall {V : Type} (base : List (String × V)) (extraPositional : List String)
    (kw : List (String × V)) : Except String (List (String × V)) :=
  if extraPositional.isEmpty then
    Except.ok (kw.foldl (fun acc p => dictSet acc p.1 p.2) base)
  else Except.error "TypeError: dict expected at most 1 argument"

/-- `Segmenter.watershed` (lines 189-211).  The source line

    kwargs = dict(self.watershed_kws, connectivity=connectivity, *kwargs)

unpacks `*kwargs` — the KEYS of the dict — as extra positional arguments of
`dict`, so the call raises `TypeError` whenever `kwargs` is non-empty, before
`morphology.watershed` is reached.  The external `skimage.morphology.watershed`
is abstracted as `ws`, a function of `(data, markers, mask, kwargs)`;
`connectivity=None` defaults to `data.ndim`. -/
def watershed {V R : Type} (ws : V → V → V → List (String × V) → R)
    (watershed_kws : List (String × V)) (ndim : V) (data markers mask : V)
    (connectivity : Option V) (kwargs : List (String × V)) : Except String R :=
  (dictCall watershed_kws (kwargs.map (fun kv => kv.1))
      [("connectivity", connectivity.getD ndim)]).map (ws data markers mask)

/-! ## `FreeEnergylnPi`: masks, boundaries, barrier matrices (lines 234-363)

The field is a function on a finite set of grid points; `connectivity`
induces a symmetric pixel-adjacency relation, abstracted as `adj`.  A point
lies on the thick (`mode='thick'`) boundary of a mask iff its neighbourhood
(itself and its `adj`-neighbours) meets both the mask and its complement,
which is `skimage.segmentation.find_boundaries` on a boolean mask.  Masks
are in image convention (True = inside); `masks_change_convention` with the
default `convention='image'` is the identity and is not modelled.  The
source indexes `_boundaries` by `self._index`, which is
`np.arange(nfeature)` when no index is passed (the only case exercised by
the pipeline), so regions are indexed by `Fin nf` here.  Empty masks make
`self._data[msk].max()` raise in the source, so instances carry
`masks_nonempty`. -/

structure FreeEnergylnPi (α : Type) [LinearOrderedAddCommGroup α] (npts nf : ℕ) where
  data : Fin npts → α
  masks : Fin nf → Finset (Fin npts)
  adj : Fin npts → Fin npts → Bool
  masks_nonempty : ∀ i, (masks i).Nonempty

variable {α : Type} [LinearOrderedAddCommGroup α] {npts nf : ℕ}

/-- `_find_boundaries` (lines 300-302): the thick boundary of mask `i`. -/
def boundary (F : FreeEnergylnPi α npts nf) (i : Fin nf) : Finset (Fin npts) :=
  Finset.univ.filter fun p =>
    (∃ q, (q = p ∨ F.adj p q = true) ∧ q ∈ F.masks i)
    ∧ (∃ q, (q = p ∨ F.adj p q = true) ∧ q ∉ F.masks i)

/-- `_boundaries_overlap` (lines 311-330) for one ordered pair `(i, j)`:
the overlap of the two thick boundaries restricted to the union of the two
regions.  The source stores `None` for an empty overlap; `transValSet`
below folds that sentinel into the `w_tran` value directly. -/
def boundaries_overlap (F : FreeEnergylnPi α npts nf) (i j : Fin nf) : Finset (Fin npts) :=
  (boundary F i ∩ boundary F j) ∩ (F.masks i ∪ F.masks j)

/-- `-(data[overlap]).max()` when the overlap is non-empty, else `np.inf`
(lines 348-355). -/
def transValSet (F : FreeEnergylnPi α npts nf) (s : Finset (Fin npts)) : WithTop α :=
  if h : s.Nonempty then ((-(s.sup' h F.data) : α) : WithTop α) else ⊤

/-- `w_tran` (lines 337-356): the matrix is filled with `np.inf`, then for
every combination `i < j` both `out[i, j]` and `out[j, i]` are set from the
overlap of the pair; the diagonal is never written. -/
def w_tran (F : FreeEnergylnPi α npts nf) (i j : Fin nf) : WithTop α :=
  if i = j then ⊤
  else if i < j then transValSet F (boundaries_overlap F i j)
  else transValSet F (boundaries_overlap F j i)

/-- `w_min` (lines 332-335): `-data[mask].max()` per region. -/
def w_min (F : FreeEnergylnPi α npts nf) (i : Fin nf) : α :=
  -((F.masks i).sup' (F.masks_nonempty i) F.data)

/-- `delta_w` (lines 358-363): `w_tran - w_min`, the column `w_min` being
broadcast along rows, with `inf - finite = inf`. -/
def delta_w (F : FreeEnergylnPi α npts nf) (i j : Fin nf) : WithTop α :=
  (w_tran F i j).map fun v => v - w_min F i

/-! ## `merge_regions` (segment.py lines 365-464)

The loop state holds the working copy `w_tran` (the row/column of a killed
region is overwritten with `np.inf`), the list of live region indices (the
insertion-ordered keys of the Python `mapping` dict), and `maskOf i`, the
current content of the array `self._masks[i]` — which the dict values
alias, and which `mapping[idx_keep] |= mapping[idx_kill]` mutates in place.
`w_min` never changes during the loop and is passed separately.  Reading or
deleting a missing key raises `KeyError`, hence `Except Unit`.  The boolean
accumulated alongside records that every executed merge step had a finite
minimum cost `np.nanmin(de)` (it starts `true` and is and-ed each step); it
is bookkeeping about the run, not data the source computes. -/

structure MergeState (α : Type) [LinearOrderedAddCommGroup α] (nf npts : ℕ) where
  wtran : Fin nf → Fin nf → WithTop α
  alive : List (Fin nf)
  maskOf : Fin nf → Finset (Fin npts)

/-- `de = w_tran - w_min` (line 414) over the working copy. -/
def deMat (wt : Fin nf → Fin nf → WithTop α) (wm : Fin nf → α) (i j : Fin nf) : WithTop α :=
  (wt i j).map fun v => v - wm i

/-- `min_val = np.nanmin(de)` (line 415): minimum over all matrix entries. -/
def minDe (wt : Fin nf → Fin nf → WithTop α) (wm : Fin nf → α) : WithTop α :=
  Finset.univ.inf fun p : Fin nf × Fin nf => deMat wt wm p.1 p.2

/-- All index pairs in row-major (C) order, the scan order of `np.where`. -/
def rowMajorPairs (nf : ℕ) : List (Fin nf × Fin nf) :=
  (List.finRange nf).flatMap fun i => (List.finRange nf).map fun j => (i, j)

/-- `idx_keep, idx_kill = [x[0] for x in np.where(de == min_val)]`
(line 428): the first entry equal to the minimum, in row-major order. -/
def firstMinPair (wt : Fin nf → Fin nf → WithTop α) (wm : Fin nf → α) :
    Option (Fin nf × Fin nf) :=
  (rowMajorPairs nf).find? fun p => decide (deMat wt wm p.1 p.2 = minDe wt wm)

/-- `if w_min[idx_keep] > w_min[idx_kill]: idx_keep, idx_kill = idx_kill,
idx_keep` (lines 431-432). -/
def swapPair (wm : Fin nf → α) (p : Fin nf × Fin nf) : Fin nf × Fin nf :=
  if wm p.2 < wm p.1 then (p.2, p.1) else (p.1, p.2)

/-- One merge step (lines 439-448): `new_tran` is the entrywise minimum of
the `idx_keep` and `idx_kill` rows with the self-transition reset to
`np.inf`; it overwrites the `idx_keep` row and column, then the `idx_kill`
row and column are overwritten with `np.inf`; the kept stored mask is
updated in place to the union and the killed key is removed. -/
def mergeStepUpdate (keep kill : Fin nf) (st : MergeState α nf npts) : MergeState α nf npts :=
  { wtran := fun i j =>
      if i = kill ∨ j = kill then ⊤
      else if i = keep then (if j = keep then ⊤ else min (st.wtran keep j) (st.wtran kill j))
      else if j = keep then (if i = keep then ⊤ else min (st.wtran keep i) (st.wtran kill i))
      else st.wtran i j,
    alive := st.alive.erase kill,
    maskOf := Function.update st.maskOf keep (st.maskOf keep ∪ st.maskOf kill) }

/-- The `for cnt in range(self._nfeature)` loop (lines 409-448), fuel being
the remaining iterations.  Each round: recompute `de` and `min_val`; break
when `min_val > efac` and (`force` is false, or the live count is within
`nfeature_max`); otherwise merge the first minimising pair, swapped so the
lower-`w_min` region survives.  `mapping[idx_keep] |= mapping[idx_kill]`
and `del mapping[idx_kill]` raise `KeyError` when the index is not a live
key. -/
def mergeLoopAux (wm : Fin nf → α) (efac : α) (force : Bool) (nmax : ℕ) :
    ℕ → MergeState α nf npts → Bool → Except Unit (MergeState α nf npts × Bool)
  | 0, st, flag => Except.ok (st, flag)
  | fuel + 1, st, flag =>
    if (efac : WithTop α) < minDe st.wtran wm ∧ (force = false ∨ st.alive.length ≤ nmax) then
      Except.ok (st, flag)
    else
      match firstMinPair st.wtran wm with
      | none => Except.error ()
      | some p =>
        if (swapPair wm p).1 ∈ st.alive ∧ (swapPair wm p).2 ∈ st.alive then
          mergeLoopAux wm efac force nmax fuel
            (mergeStepUpdate (swapPair wm p).1 (swapPair wm p).2 st)
            (flag && decide (minDe st.wtran wm ≠ ⊤))
        else Except.error ()

/-- The state entering the loop: the fresh copies `w_tran.copy()`,
`mapping = {i: msk for i, msk in enumerate(self._masks)}` (lines 399-408). -/
def initState (F : FreeEnergylnPi α npts nf) : MergeState α nf npts :=
  { wtran := w_tran F, alive := List.finRange nf, maskOf := F.masks }

/-- `merge_regions` (lines 365-464) together with the final content of the
instance's stored masks: `nfeature_max = None` defaults to `self._nfeature`
and the loop gets `self._nfeature` rounds of fuel.  The default
`convention='image'` output conversion is the identity. -/
def mergeRegionsFull (F : FreeEnergylnPi α npts nf) (nfeature_max : Option ℕ) (efac : α)
    (force : Bool) : Except Unit (MergeState α nf npts × Bool) :=
  mergeLoopAux (fun i => w_min F i) efac force (nfeature_max.getD nf) nf (initState F) true

/-- `merge_regions` proper: the final state, from which the returned
`(masks, w_tran, w_min)` triple is read off by `finalMasks`, `finalWtran`
and `finalWmin` below. -/
def merge_regions (F : FreeEnergylnPi α npts nf) (nfeature_max : Option ℕ) (efac : α)
    (force : Bool) : Except Unit (MergeState α nf npts) :=
  (mergeRegionsFull F nfeature_max efac force).map fun p => p.1

/-- `masks = [mapping[i] for i in idx_min]` (lines 452-459): the surviving
masks in insertion order of the dict keys. -/
def finalMasks (st : MergeState α nf npts) : List (Finset (Fin npts)) :=
  st.alive.map st.maskOf

/-- `w_tran = w_tran[np.ix_(idx_min, idx_min)]` (lines 455-456). -/
def finalWtran (st : MergeState α nf npts) (a b : Fin st.alive.length) : WithTop α :=
  st.wtran (st.alive.get a) (st.alive.get b)

/-- `w_min = w_min[idx_min]` (lines 452-453). -/
def finalWmin (wm : Fin nf → α) (st : MergeState α nf npts) (a : Fin st.alive.length) : α :=
  wm (st.alive.get a)

/-- Union of a list of masks (for the partition invariant). -/
def unionList {β : Type} [DecidableEq β] (l : List (Finset β)) : Finset β :=
  l.foldr (fun s acc => s ∪ acc) ∅

/-- Minimum of `de` over the entries whose row and column both avoid
`a` and `b` — the pre-merge pairs "not involving the two merged regions". -/
def minDeExcl (wt : Fin nf → Fin nf → WithTop α) (wm : Fin nf → α) (a b : Fin nf) : WithTop α :=
  (Finset.univ.filter fun p : Fin nf × Fin nf =>
      p.1 ≠ a ∧ p.1 ≠ b ∧ p.2 ≠ a ∧ p.2 ≠ b).inf fun p => deMat wt wm p.1 p.2

/-! ## Concrete instances

All are one-dimensional strips (a 1×N image) with the chain adjacency
`|p - q| = 1`, integer-valued fields, and masks in image convention. -/

/-- Chain adjacency of a 1×N image: left/right neighbours. -/
def adjLine {n : ℕ} (p q : Fin n) : Bool := decide (p.val + 1 = q.val ∨ q.val + 1 = p.val)

/-- Three regions: 0 and 1 are adjacent (region 1 has the higher peak, so a
merge of the pair kills region 0), region 2 is isolated from both. -/
def FE_A : FreeEnergylnPi ℤ 9 3 :=
  { data := ![0, 1, 0, 0, 2, 0, 0, 1, 0],
    masks := ![{0, 1}, {2, 3, 4}, {6, 7, 8}],
    adj := adjLine,
    masks_nonempty := by decide }

/-- Two adjacent regions with a low barrier between them. -/
def FE_B : FreeEnergylnPi ℤ 5 2 :=
  { data := ![0, 1, 0, 0, 2],
    masks := ![{0, 1}, {2, 3, 4}],
    adj := adjLine,
    masks_nonempty := by decide }

/-- Two disjoint regions with no shared boundary (all barriers infinite). -/
def FE_C : FreeEnergylnPi ℤ 9 2 :=
  { data := ![0, 1, 0, 0, 0, 0, 0, 1, 0],
    masks := ![{0, 1}, {6, 7, 8}],
    adj := adjLine,
    masks_nonempty := by decide }

/-- Four regions in a chain, all peaks equal (50): barrier costs are 1
between regions 0 and 1, 2 between 1 and 2, 40 between 2 and 3, and the
non-adjacent pairs are infinite. -/
def FE_D : FreeEnergylnPi ℤ 12 4 :=
  { data := ![0, 50, 49, 49, 50, 48, 48, 50, 10, 10, 50, 0],
    masks := ![{0, 1, 2}, {3, 4, 5}, {6, 7, 8}, {9, 10, 11}],
    adj := adjLine,
    masks_nonempty := by decide }

/-- A throwaway state used only as the default of `Option.getD`. -/
def junkState : MergeState α nf npts :=
  { wtran := fun _ _ => ⊤, alive := [], maskOf := fun _ => ∅ }

/-- The final state of the (successful) merge run on `FE_B`. -/
def stB : MergeState ℤ 2 5 :=
  (merge_regions FE_B (some 1) 1 true).toOption.getD junkState

/-- The final state of the same run together with its finite-steps flag. -/
def outB : MergeState ℤ 2 5 × Bool :=
  (mergeRegionsFull FE_B (some 1) 1 true).toOption.getD (junkState, false)

/-- The state of the merge run on `FE_D` after exactly one round
(fuel 1). -/
def stD1 : MergeState ℤ 4 12 :=
  ((mergeLoopAux (fun i => w_min FE_D i) 10 true 1 1 (initState FE_D) true).toOption.getD
    (junkState, false)).1

/-- The final state of the merge run on `FE_C` (two non-adjacent regions,
forced down to one). -/
def stC : MergeState ℤ 2 9 :=
  (merge_regions FE_C (some 1) 1 true).toOption.getD junkState

/-! ## Helper lemmas -/

/-! ## Order helpers for `WithTop` subtraction -/

theorem mapSub_mono {x y : WithTop α} (c : α) (h : x ≤ y) :
    x.map (fun v => v - c) ≤ y.map (fun v => v - c) := by
  induction x using WithTop.recTopCoe with
  | top =>
    rw [top_le_iff.mp h]
  | coe a =>
    induction y using WithTop.recTopCoe with
    | top =>
      rw [WithTop.map_top]
      exact le_top
    | coe b =>
      rw [WithTop.map_coe, WithTop.map_coe]
      exact WithTop.coe_le_coe.mpr (sub_le_sub_right (WithTop.coe_le_coe.mp h) c)

theorem mapSub_anti {x : WithTop α} {c d : α} (h : c ≤ d) :
    x.map (fun v => v - d) ≤ x.map (fun v => v - c) := by
  induction x using WithTop.recTopCoe with
  | top => rw [WithTop.map_top, WithTop.map_top]
  | coe a =>
    rw [WithTop.map_coe, WithTop.map_coe]
    exact WithTop.coe_le_coe.mpr (sub_le_sub_left h a)

theorem mapSub_min (x y : WithTop α) (c : α) :
    (min x y).map (fun v => v - c)
      = min (x.map (fun v => v - c)) (y.map (fun v => v - c)) := by
  rcases le_total x y with h | h
  · rw [min_eq_left h, min_eq_left (mapSub_mono c h)]
  · rw [min_eq_right h, min_eq_right (mapSub_mono c h)]

theorem minDe_le (wt : Fin nf → Fin nf → WithTop α) (wm : Fin nf → α) (i j : Fin nf) :
    minDe wt wm ≤ deMat wt wm i j :=
  Finset.inf_le (Finset.mem_univ (i, j))

theorem deMat_eq_top_iff {wt : Fin nf → Fin nf → WithTop α} {wm : Fin nf → α} {i j : Fin nf} :
    deMat wt wm i j = ⊤ ↔ wt i j = ⊤ := by
  unfold deMat
  exact WithTop.map_eq_top_iff

theorem firstMinPair_spec {wt : Fin nf → Fin nf → WithTop α} {wm : Fin nf → α}
    {p : Fin nf × Fin nf} (h : firstMinPair wt wm = some p) :
    deMat wt wm p.1 p.2 = minDe wt wm := by
  unfold firstMinPair at h
  have hp := List.find?_some h
  exact of_decide_eq_true hp

/-! ## Facts about `w_tran` and the boundary overlap -/

theorem boundaries_overlap_comm (F : FreeEnergylnPi α npts nf) (i j : Fin nf) :
    boundaries_overlap F j i = boundaries_overlap F i j := by
  unfold boundaries_overlap
  rw [Finset.inter_comm (boundary F j) (boundary F i),
    Finset.union_comm (F.masks j) (F.masks i)]

theorem w_tran_symm (F : FreeEnergylnPi α npts nf) (i j : Fin nf) :
    w_tran F i j = w_tran F j i := by
  by_cases hij : i = j
  · rw [hij]
  · rcases lt_or_gt_of_ne hij with hlt | hgt
    · simp only [w_tran]
      rw [if_neg hij, if_pos hlt, if_neg (Ne.symm hij), if_neg (lt_asymm hlt)]
    · simp only [w_tran]
      rw [if_neg hij, if_neg (lt_asymm hgt), if_neg (Ne.symm hij), if_pos hgt]

theorem w_tran_diag (F : FreeEnergylnPi α npts nf) (i : Fin nf) : w_tran F i i = ⊤ := by
  simp [w_tran]

/-! ## Step lemmas for `mergeStepUpdate` -/

theorem mergeStepUpdate_symm (keep kill : Fin nf) (st : MergeState α nf npts)
    (hsym : ∀ i j, st.wtran i j = st.wtran j i) (i j : Fin nf) :
    (mergeStepUpdate keep kill st).wtran i j = (mergeStepUpdate keep kill st).wtran j i := by
  unfold mergeStepUpdate
  dsimp only
  by_cases hik : i = kill <;> by_cases hjk : j = kill <;>
    by_cases hike : i = keep <;> by_cases hjke : j = keep <;>
      simp [hik, hjk, hike, hjke, hsym i j]

theorem mergeStepUpdate_diag (keep kill : Fin nf) (st : MergeState α nf npts)
    (hdiag : ∀ i, st.wtran i i = ⊤) (i : Fin nf) :
    (mergeStepUpdate keep kill st).wtran i i = ⊤ := by
  unfold mergeStepUpdate
  dsimp only
  by_cases hik : i = kill <;> by_cases hike : i = keep <;> simp [hik, hike, hdiag i]

theorem mergeStepUpdate_maskOf_subset (keep kill : Fin nf) (st : MergeState α nf npts)
    (i : Fin nf) : st.maskOf i ⊆ (mergeStepUpdate keep kill st).maskOf i := by
  unfold mergeStepUpdate
  dsimp only
  by_cases hik : i = keep
  · subst hik
    rw [Function.update_same]
    exact Finset.subset_union_left
  · rw [Function.update_noteq hik]

theorem mergeStepUpdate_disjoint (keep kill : Fin nf) (st : MergeState α nf npts)
    (hkm : keep ∈ st.alive) (hlm : kill ∈ st.alive) (hne : keep ≠ kill)
    (hnd : st.alive.Nodup)
    (hdisj : ∀ i ∈ st.alive, ∀ j ∈ st.alive, i ≠ j → Disjoint (st.maskOf i) (st.maskOf j)) :
    ∀ i ∈ (mergeStepUpdate keep kill st).alive, ∀ j ∈ (mergeStepUpdate keep kill st).alive,
      i ≠ j →
      Disjoint ((mergeStepUpdate keep kill st).maskOf i)
        ((mergeStepUpdate keep kill st).maskOf j) := by
  intro i hi j hj hij
  have hi' := (List.Nodup.mem_erase_iff hnd).1 hi
  have hj' := (List.Nodup.mem_erase_iff hnd).1 hj
  unfold mergeStepUpdate
  dsimp only
  by_cases hike : i = keep
  · subst hike
    rw [Function.update_same, Function.update_noteq (Ne.symm hij)]
    exact Finset.disjoint_union_left.2
      ⟨hdisj i hkm j hj'.2 hij, hdisj kill hlm j hj'.2 (Ne.symm hj'.1)⟩
  · rw [Function.update_noteq hike]
    by_cases hjke : j = keep
    · subst hjke
      rw [Function.update_same]
      exact Finset.disjoint_union_right.2
        ⟨hdisj i hi'.2 j hkm hij, hdisj i hi'.2 kill hlm hi'.1⟩
    · rw [Function.update_noteq hjke]
      exact hdisj i hi'.2 j hj'.2 hij

theorem unionList_nil {β : Type} [DecidableEq β] : unionList ([] : List (Finset β)) = ∅ := rfl

theorem unionList_cons {β : Type} [DecidableEq β] (s : Finset β) (t : List (Finset β)) :
    unionList (s :: t) = s ∪ unionList t := rfl

theorem mem_unionList {β : Type} [DecidableEq β] {l : List (Finset β)} {x : β} :
    x ∈ unionList l ↔ ∃ s ∈ l, x ∈ s := by
  induction l with
  | nil => simp [unionList_nil]
  | cons s t ih => simp [unionList_cons, ih]

theorem mergeStepUpdate_unionList (keep kill : Fin nf) (st : MergeState α nf npts)
    (hkm : keep ∈ st.alive) (hlm : kill ∈ st.alive) (hne : keep ≠ kill)
    (hnd : st.alive.Nodup) :
    unionList (finalMasks (mergeStepUpdate keep kill st)) = unionList (finalMasks st) := by
  apply Finset.ext
  intro x
  simp only [finalMasks, mergeStepUpdate, mem_unionList, List.mem_map]
  constructor
  · rintro ⟨s, ⟨i, hi, rfl⟩, hx⟩
    have hi' := (List.Nodup.mem_erase_iff hnd).1 hi
    by_cases hik : i = keep
    · subst hik
      rw [Function.update_same] at hx
      rcases Finset.mem_union.1 hx with h | h
      · exact ⟨st.maskOf i, ⟨i, hi'.2, rfl⟩, h⟩
      · exact ⟨st.maskOf kill, ⟨kill, hlm, rfl⟩, h⟩
    · rw [Function.update_noteq hik] at hx
      exact ⟨st.maskOf i, ⟨i, hi'.2, rfl⟩, hx⟩
  · rintro ⟨s, ⟨i, hi, rfl⟩, hx⟩
    by_cases hik : i = kill
    · subst hik
      refine ⟨_, ⟨keep, (List.Nodup.mem_erase_iff hnd).2 ⟨hne, hkm⟩, rfl⟩, ?_⟩
      rw [Function.update_same]
      exact Finset.mem_union_right _ hx
    · by_cases hike : i = keep
      · subst hike
        refine ⟨_, ⟨i, (List.Nodup.mem_erase_iff hnd).2 ⟨hne, hi⟩, rfl⟩, ?_⟩
        rw [Function.update_same]
        exact Finset.mem_union_left _ hx
      · refine ⟨_, ⟨i, (List.Nodup.mem_erase_iff hnd).2 ⟨hik, hi⟩, rfl⟩, ?_⟩
        rw [Function.update_noteq hike]
        exact hx

theorem swapPair_wm_le (wm : Fin nf → α) (p : Fin nf × Fin nf) :
    wm (swapPair wm p).1 ≤ wm (swapPair wm p).2 := by
  unfold swapPair
  split
  · next h => exact le_of_lt h
  · next h => exact not_lt.mp h

theorem swapPair_ne (wm : Fin nf → α) (p : Fin nf × Fin nf) (h : p.1 ≠ p.2) :
    (swapPair wm p).1 ≠ (swapPair wm p).2 := by
  unfold swapPair
  split
  · exact Ne.symm h
  · exact h

/-! ## Loop lemmas for `mergeLoopAux` -/

theorem mergeLoopAux_break (wm : Fin nf → α) (efac : α) (force : Bool) (nmax : ℕ)
    (st : MergeState α nf npts)
    (h : (efac : WithTop α) < minDe st.wtran wm ∧ (force = false ∨ st.alive.length ≤ nmax)) :
    ∀ fuel flag, mergeLoopAux wm efac force nmax fuel st flag = Except.ok (st, flag) := by
  intro fuel flag
  cases fuel with
  | zero => rw [mergeLoopAux]
  | succ n => rw [mergeLoopAux, if_pos h]

theorem mergeLoopAux_flag (wm : Fin nf → α) (efac : α) (force : Bool) (nmax : ℕ) :
    ∀ fuel (st : MergeState α nf npts) flag st',
      mergeLoopAux wm efac force nmax fuel st flag = Except.ok (st', true) → flag = true := by
  intro fuel
  induction fuel with
  | zero =>
    intro st flag st' h
    rw [mergeLoopAux] at h
    injection h with h'
    exact congrArg Prod.snd h'
  | succ fuel ih =>
    intro st flag st' h
    rw [mergeLoopAux] at h
    split at h
    · injection h with h'
      exact congrArg Prod.snd h'
    · split at h
      · exact Except.noConfusion h
      · split at h
        · exact (Bool.and_eq_true_iff.mp (ih _ _ _ h)).1
        · exact Except.noConfusion h

theorem mergeLoopAux_symm (wm : Fin nf → α) (efac : α) (force : Bool) (nmax : ℕ) :
    ∀ fuel (st : MergeState α nf npts) flag st' flag',
      mergeLoopAux wm efac force nmax fuel st flag = Except.ok (st', flag') →
      (∀ i j, st.wtran i j = st.wtran j i) →
      ∀ i j, st'.wtran i j = st'.wtran j i := by
  intro fuel
  induction fuel with
  | zero =>
    intro st flag st' flag' h hsym
    rw [mergeLoopAux] at h
    injection h with h'
    injection h' with h1 h2
    subst h1
    exact hsym
  | succ fuel ih =>
    intro st flag st' flag' h hsym
    rw [mergeLoopAux] at h
    split at h
    · injection h with h'
      injection h' with h1 h2
      subst h1
      exact hsym
    · split at h
      · exact Except.noConfusion h
      · split at h
        · exact ih _ _ _ _ h (mergeStepUpdate_symm _ _ _ hsym)
        · exact Except.noConfusion h

theorem mergeLoopAux_count (wm : Fin nf → α) (efac : α) (nmax : ℕ) :
    ∀ fuel (st : MergeState α nf npts) flag st' flag',
      mergeLoopAux wm efac true nmax fuel st flag = Except.ok (st', flag') →
      st.alive.length ≤ fuel →
      st'.alive.length ≤ max 1 nmax := by
  intro fuel
  induction fuel with
  | zero =>
    intro st flag st' flag' h hlen
    rw [mergeLoopAux] at h
    injection h with h'
    injection h' with h1 h2
    subst h1
    exact le_trans (le_trans hlen (Nat.zero_le 1)) (le_max_left 1 nmax)
  | succ fuel ih =>
    intro st flag st' flag' h hlen
    rw [mergeLoopAux] at h
    split at h
    · rename_i hbr
      injection h with h'
      injection h' with h1 h2
      subst h1
      rcases hbr.2 with hf | hcnt
      · exact absurd hf (by simp)
      · exact le_trans hcnt (le_max_right 1 nmax)
    · split at h
      · exact Except.noConfusion h
      · rename_i p hfp
        split at h
        · rename_i hmem
          refine ih _ _ _ _ h ?_
          have hlen' : ((mergeStepUpdate (swapPair wm p).1 (swapPair wm p).2 st).alive).length
              = st.alive.length - 1 := by
            simp [mergeStepUpdate, List.length_erase_of_mem hmem.2]
          rw [hlen']
          omega
        · exact Except.noConfusion h

theorem mergeLoopAux_masks_subset (wm : Fin nf → α) (efac : α) (force : Bool) (nmax : ℕ) :
    ∀ fuel (st : MergeState α nf npts) flag st' flag',
      mergeLoopAux wm efac force nmax fuel st flag = Except.ok (st', flag') →
      ∀ i, st.maskOf i ⊆ st'.maskOf i := by
  intro fuel
  induction fuel with
  | zero =>
    intro st flag st' flag' h i
    rw [mergeLoopAux] at h
    injection h with h'
    injection h' with h1 h2
    subst h1
    exact Finset.Subset.refl _
  | succ fuel ih =>
    intro st flag st' flag' h i
    rw [mergeLoopAux] at h
    split at h
    · injection h with h'
      injection h' with h1 h2
      subst h1
      exact Finset.Subset.refl _
    · split at h
      · exact Except.noConfusion h
      · split at h
        · exact Finset.Subset.trans (mergeStepUpdate_maskOf_subset _ _ _ i) (ih _ _ _ _ h i)
        · exact Except.noConfusion h

theorem mergeLoopAux_partition (wm : Fin nf → α) (efac : α) (force : Bool) (nmax : ℕ) :
    ∀ fuel (st : MergeState α nf npts) flag st',
      mergeLoopAux wm efac force nmax fuel st flag = Except.ok (st', true) →
      st.alive.Nodup →
      (∀ i, st.wtran i i = ⊤) →
      (∀ i ∈ st.alive, ∀ j ∈ st.alive, i ≠ j → Disjoint (st.maskOf i) (st.maskOf j)) →
      st'.alive.Nodup
      ∧ (∀ i ∈ st'.alive, ∀ j ∈ st'.alive, i ≠ j → Disjoint (st'.maskOf i) (st'.maskOf j))
      ∧ unionList (finalMasks st') = unionList (finalMasks st) := by
  intro fuel
  induction fuel with
  | zero =>
    intro st flag st' h hnd hdiag hdisj
    rw [mergeLoopAux] at h
    injection h with h'
    injection h' with h1 h2
    subst h1
    exact ⟨hnd, hdisj, rfl⟩
  | succ fuel ih =>
    intro st flag st' h hnd hdiag hdisj
    rw [mergeLoopAux] at h
    split at h
    · injection h with h'
      injection h' with h1 h2
      subst h1
      exact ⟨hnd, hdisj, rfl⟩
    · split at h
      · exact Except.noConfusion h
      · rename_i p hfp
        split at h
        · rename_i hmem
          have hflag := mergeLoopAux_flag wm efac force nmax fuel _ _ _ h
          have hmin : minDe st.wtran wm ≠ ⊤ :=
            of_decide_eq_true (Bool.and_eq_true_iff.mp hflag).2
          have hde : deMat st.wtran wm p.1 p.2 = minDe st.wtran wm := firstMinPair_spec hfp
          have hp12 : p.1 ≠ p.2 := by
            intro hcontra
            apply hmin
            rw [← hde, hcontra, deMat_eq_top_iff]
            exact hdiag p.2
          have hne : (swapPair wm p).1 ≠ (swapPair wm p).2 := swapPair_ne wm p hp12
          obtain ⟨hnd2, hdj2, hun2⟩ := ih _ _ _ h (List.Nodup.erase _ hnd)
            (mergeStepUpdate_diag _ _ _ hdiag)
            (mergeStepUpdate_disjoint _ _ _ hmem.1 hmem.2 hne hnd hdisj)
          exact ⟨hnd2, hdj2,
            hun2.trans (mergeStepUpdate_unionList _ _ _ hmem.1 hmem.2 hne hnd)⟩
        · exact Except.noConfusion h

theorem merge_regions_ok {F : FreeEnergylnPi α npts nf} {o : Option ℕ} {efac : α}
    {force : Bool} {st : MergeState α nf npts}
    (h : merge_regions F o efac force = Except.ok st) :
    ∃ b, mergeRegionsFull F o efac force = Except.ok (st, b) := by
  unfold merge_regions at h
  cases hfull : mergeRegionsFull F o efac force with
  | error e => rw [hfull] at h; exact Except.noConfusion h
  | ok p =>
    rw [hfull] at h
    have h2 : Except.ok (ε := Unit) p.1 = Except.ok st := h
    injection h2 with h'
    subst h'
    exact ⟨p.2, rfl⟩

theorem pairwise_of_forall_of_nodup {β : Type} {R : β → β → Prop} :
    ∀ {l : List β}, l.Nodup → (∀ a ∈ l, ∀ b ∈ l, a ≠ b → R a b) → l.Pairwise R := by
  intro l
  induction l with
  | nil => intro _ _; exact List.Pairwise.nil
  | cons a t ih =>
    intro hnd h
    rcases List.nodup_cons.1 hnd with ⟨ha, hnd'⟩
    refine List.Pairwise.cons ?_
      (ih hnd' fun x hx y hy => h x (List.mem_cons_of_mem a hx) y (List.mem_cons_of_mem a hy))
    intro b hb
    exact h a (List.mem_cons_self a t) b (List.mem_cons_of_mem a hb)
      (fun hcontra => ha (hcontra ▸ hb))

/-! ## Claims about the peak finder and the watershed wrapper -/

/-- Claim C3: when even the most permissive min-distance candidate yields
more peaks than the cap, the policies behave as follows on the code:
`ignore` proceeds and returns the found peaks; `raise` fails with the
count-exceeded error, and only `raise` fails; but `warn` proceeds WITHOUT
emitting any warning (the branch tests `errors in ('raise', 'ignore')`
instead of `'warn'`, so the warning path is dead code), contradicting both
the claim and the function's own docstring ("If warn, raise warning if
npeaks > num_peaks_max").  Evaluated here on a run where both candidate
radii find 2 peaks with a cap of 1: the `warn` policy returns the peaks
with the warning flag `false`. -/
theorem C3_overflow_policy_eval :
    peak_local_max_adaptive plmOverflow [1, 2] (1 : ℕ) "warn" = Except.ok ([0, 1], false)
    ∧ peak_local_max_adaptive plmOverflow [1, 2] (1 : ℕ) "raise"
        = Except.error "RuntimeError: maxima found greater than num_peaks_max"
    ∧ peak_local_max_adaptive plmOverflow [1, 2] (1 : ℕ) "ignore" = Except.ok ([0, 1], false) :=
  ⟨rfl, rfl, rfl⟩

/-- Claim C9: the adaptive loop returns the peaks of the first candidate
whose count is within the cap — insensitive to how `peak_local_max` would
behave at any later candidate — and, when every candidate overflows, the
peaks of the last candidate tried; whatever the policy, a normal return of
`peak_local_max_adaptive` carries exactly the peaks selected by the loop. -/
theorem C9_first_success_or_last {α : Type} (plm : ℕ → List α) (maxP : WithTop ℕ)
    (cands : List ℕ) :
    (∀ pre c post, cands = pre ++ c :: post →
      (∀ d ∈ pre, ¬ (((plm d).length : WithTop ℕ) ≤ maxP)) →
      ((plm c).length : WithTop ℕ) ≤ maxP →
      ∀ plm' : ℕ → List α, (∀ d ∈ pre, plm' d = plm d) → plm' c = plm c →
        adaptiveSelect plm' maxP cands = some (plm c))
    ∧ ((∀ d ∈ cands, ¬ (((plm d).length : WithTop ℕ) ≤ maxP)) →
      ∀ h : cands ≠ [], adaptiveSelect plm maxP cands = some (plm (cands.getLast h)))
    ∧ (∀ errors idx w, peak_local_max_adaptive plm cands maxP errors = Except.ok (idx, w) →
        some idx = adaptiveSelect plm maxP cands) := by
  refine ⟨?_, ?_, ?_⟩
  · intro pre
    induction pre generalizing cands with
    | nil =>
      rintro c post rfl _ hc plm' _ hc'
      cases post with
      | nil => simp [adaptiveSelect, hc', hc]
      | cons d rest => simp [adaptiveSelect, hc', hc]
    | cons d pre ih =>
      rintro c post rfl hpre hc plm' hpre' hc'
      have hd : ¬ (((plm' d).length : WithTop ℕ) ≤ maxP) := by
        rw [hpre' d (List.mem_cons_self d pre)]
        exact hpre d (List.mem_cons_self d pre)
      have hrest : pre ++ c :: post ≠ [] := by simp
      rw [List.cons_append]
      match hp : pre ++ c :: post, hrest with
      | md2 :: rest2, _ =>
        rw [adaptiveSelect, if_neg hd]
        rw [← hp]
        exact ih (pre ++ c :: post) c post rfl (fun x hx => hpre x (List.mem_cons_of_mem d hx))
          hc plm' (fun x hx => hpre' x (List.mem_cons_of_mem d hx)) hc'
  · intro hall
    induction cands with
    | nil => intro h; exact absurd rfl h
    | cons c rest ih =>
      intro h
      have hc : ¬ (((plm c).length : WithTop ℕ) ≤ maxP) := hall c (List.mem_cons_self c rest)
      cases rest with
      | nil => simp [adaptiveSelect, hc]
      | cons c2 rest2 =>
        rw [adaptiveSelect, if_neg hc]
        rw [List.getLast_cons (by simp : (c2 :: rest2 : List ℕ) ≠ [])]
        exact ih (fun x hx => hall x (List.mem_cons_of_mem c hx)) (by simp)
  · intro errors idx w h
    cases hsel : adaptiveSelect plm maxP cands with
    | none =>
      unfold peak_local_max_adaptive at h
      rw [hsel] at h
      exact absurd h (by simp)
    | some idx0 =>
      have hpe : peak_local_max_adaptive plm cands maxP errors = overflowCheck errors maxP idx0 := by
        unfold peak_local_max_adaptive
        rw [hsel]
      rw [hpe] at h
      have hidx : idx = idx0 := by
        unfold overflowCheck at h
        by_cases h1 : ((idx0.length : WithTop ℕ) ≤ maxP)
        · rw [if_pos h1] at h
          cases h
          rfl
        · rw [if_neg h1] at h
          by_cases h2 : errors = "ignore"
          · rw [if_pos h2] at h; cases h; rfl
          · rw [if_neg h2] at h
            by_cases h3 : errors = "raise" ∨ errors = "ignore"
            · rw [if_pos h3] at h
              rcases h3 with h3 | h3
              · rw [if_pos h3] at h; exact absurd h (by simp)
              · exact absurd h3 h2
            · rw [if_neg h3] at h; cases h; rfl
      rw [hidx]

/-- Witness for claim C9: on the candidate list `[1, 2]` with cap 1, the
first candidate overflows and the second succeeds, so the selection is the
second candidate's peaks; on `plmOverflow` (everything overflows) the
selection is the last candidate's peaks; and a normal `ignore`-policy
return of the full function carries the selected peaks. -/
theorem C9_first_success_or_last_witness :
    adaptiveSelect plmWitness (1 : ℕ) [1, 2] = some [0]
    ∧ adaptiveSelect plmOverflow (1 : ℕ) [1, 2] = some [0, 1]
    ∧ some [0, 1] = adaptiveSelect plmOverflow (1 : ℕ) [1, 2] := by
  refine ⟨?_, ?_, ?_⟩
  · have h := (C9_first_success_or_last plmWitness (1 : ℕ) [1, 2]).1 [1] 2 [] rfl
      (by intro d hd; rcases List.mem_singleton.mp hd with rfl; decide) (by decide)
      plmWitness (fun d _ => rfl) rfl
    simpa [plmWitness] using h
  · have h := (C9_first_success_or_last plmOverflow (1 : ℕ) [1, 2]).2.1
      (by intro d _; simp [plmOverflow]) (by simp)
    simpa [plmOverflow] using h
  · exact (C9_first_success_or_last plmOverflow (1 : ℕ) [1, 2]).2.2 "ignore" [0, 1] false rfl

/-- Claim C10: a `Segmenter.watershed` call passing at least one extra
keyword argument fails with a `TypeError` before the underlying watershed
routine is invoked — the result does not depend on the watershed routine at
all — while a call with no extra keyword arguments succeeds and forwards
`watershed_kws` updated with the resolved connectivity. -/
theorem C10_watershed_extra_kwargs {V R : Type} (ws ws' : V → V → V → List (String × V) → R)
    (watershed_kws : List (String × V)) (ndim : V) (data markers mask : V)
    (connectivity : Option V) (kwargs : List (String × V)) (hk : kwargs ≠ []) :
    watershed ws watershed_kws ndim data markers mask connectivity kwargs
        = Except.error "TypeError: dict expected at most 1 argument"
    ∧ watershed ws watershed_kws ndim data markers mask connectivity kwargs
        = watershed ws' watershed_kws ndim data markers mask connectivity kwargs
    ∧ watershed ws watershed_kws ndim data markers mask connectivity []
        = Except.ok (ws data markers mask
            (dictSet watershed_kws "connectivity" (connectivity.getD ndim))) := by
  have hne : ¬ (kwargs.map (fun kv => kv.1)).isEmpty := by
    cases kwargs with
    | nil => exact absurd rfl hk
    | cons a l => simp
  refine ⟨?_, ?_, ?_⟩
  · unfold watershed dictCall
    rw [if_neg hne]
    rfl
  · unfold watershed dictCall
    rw [if_neg hne]
    rfl
  · rfl

/-- Witness for claim C10 at a concrete call: one extra keyword argument
`compactness=1` makes the call raise `TypeError` independently of the
watershed routine, and the same call without it succeeds. -/
theorem C10_watershed_extra_kwargs_witness :
    watershed (fun _ _ _ _ => (0 : ℤ)) [] 2 0 0 0 none [("compactness", 1)]
        = Except.error "TypeError: dict expected at most 1 argument"
    ∧ watershed (fun _ _ _ _ => (0 : ℤ)) [] 2 0 0 0 none [("compactness", 1)]
        = watershed (fun _ _ _ _ => (1 : ℤ)) [] 2 0 0 0 none [("compactness", 1)]
    ∧ watershed (fun _ _ _ _ => (0 : ℤ)) [] 2 0 0 0 none []
        = Except.ok 0 := by
  have h := C10_watershed_extra_kwargs (fun _ _ _ _ => (0 : ℤ))
    (fun _ _ _ _ => (1 : ℤ)) [] 2 0 0 0 none [("compactness", 1)] (by simp)
  exact ⟨h.1, h.2.1, h.2.2⟩

/-! ## Claims about `merge_regions` -/

/-- Claim C1, counterexample: with `force=True` and `nfeature_max=1` on
`FE_A` (regions 0, 1 adjacent with region 1 the higher peak, region 2
isolated), the first round merges region 0 into region 1 and deletes key 0
from the mapping; the second round has an all-infinite `de`, so
`np.where(de == inf)` picks `(0, 0)` and `mapping[0] |= mapping[0]` raises
`KeyError` — `merge_regions` does not return normally. -/
theorem C1_counterexample : merge_regions FE_A (some 1) 1 true = Except.error () := rfl

/-- Claim C1, amended: whenever a `force=True` run of `merge_regions`
returns normally, the final mask list satisfies
`len(final_masks) ≤ max(1, nfeature_max)` regardless of `efac`; the run
can instead fail with `KeyError` when a forced merge is attempted while
the minimum merge cost is infinite and region 0 is no longer live. -/
theorem C1_count_contract (F : FreeEnergylnPi α npts nf) (nfeature_max : Option ℕ) (efac : α)
    (st : MergeState α nf npts) (h : merge_regions F nfeature_max efac true = Except.ok st) :
    (finalMasks st).length ≤ max 1 (nfeature_max.getD nf) := by
  obtain ⟨b, hfull⟩ := merge_regions_ok h
  have hlen := mergeLoopAux_count (fun i => w_min F i) efac (nfeature_max.getD nf) nf
    (initState F) true st b hfull (by simp [initState])
  simpa [finalMasks] using hlen

/-- Witness for the amended claim C1: the successful forced run on `FE_B`
with `nfeature_max = 1` ends with one mask. -/
theorem C1_count_contract_witness :
    (finalMasks stB).length ≤ max 1 ((some 1 : Option ℕ).getD 2) :=
  C1_count_contract FE_B (some 1) 1 stB rfl

/-- Claim C2, counterexample: running `merge_regions` on `FE_B` mutates the
instance's stored masks — `mapping` holds the very arrays of
`self._masks`, and `mapping[idx_keep] |= mapping[idx_kill]` is an in-place
numpy or — so after the run the stored mask of the surviving region 1 is
the whole domain, not the `{2, 3, 4}` it was constructed with. -/
theorem C2_counterexample :
    merge_regions FE_B (some 1) 1 true = Except.ok stB
    ∧ stB.maskOf 1 = ({0, 1, 2, 3, 4} : Finset (Fin 5))
    ∧ FE_B.masks 1 ≠ ({0, 1, 2, 3, 4} : Finset (Fin 5)) :=
  ⟨rfl, by decide, by decide⟩

/-- Claim C2, amended: `w_min`, `w_tran` and `delta_w` are pure derived
values, but `merge_regions` does mutate the instance: each kept region's
stored mask is replaced, in place, by the union of the masks merged into
it.  Stored masks therefore only ever grow: after any normal run every
original mask is contained in the corresponding stored mask. -/
theorem C2_stored_masks_grow (F : FreeEnergylnPi α npts nf) (o : Option ℕ) (efac : α)
    (force : Bool) (st : MergeState α nf npts) (b : Bool)
    (h : mergeRegionsFull F o efac force = Except.ok (st, b)) :
    ∀ i, F.masks i ⊆ st.maskOf i := by
  intro i
  exact mergeLoopAux_masks_subset (fun k => w_min F k) efac force (o.getD nf) nf
    (initState F) true st b h i

/-- Witness for the amended claim C2 on the `FE_B` run. -/
theorem C2_stored_masks_grow_witness : FE_B.masks 0 ⊆ outB.1.maskOf 0 :=
  C2_stored_masks_grow FE_B (some 1) 1 true outB.1 outB.2 rfl 0

/-- Claim C4, counterexample: on `FE_C` (two disjoint regions with no
shared boundary) with `force=True` and `nfeature_max=1`, the all-infinite
`de` makes the forced round pick the degenerate pair `(0, 0)`, so region 0
is simply deleted: the run returns normally with final masks `[{6,7,8}]`,
whose union lost the points of input mask 0. -/
theorem C4_counterexample :
    merge_regions FE_C (some 1) 1 true = Except.ok stC
    ∧ finalMasks stC = [({6, 7, 8} : Finset (Fin 9))]
    ∧ Disjoint (FE_C.masks 0) (FE_C.masks 1)
    ∧ unionList [({6, 7, 8} : Finset (Fin 9))]
        ≠ unionList ((List.finRange 2).map FE_C.masks) :=
  ⟨rfl, by decide, by decide, by decide⟩

/-- Claim C4, amended: for a merge run over pairwise-disjoint input masks
in which every executed merge step has a finite minimum cost (the recorded
flag is `true`; this always holds when `force=False`, and fails only for a
forced merge among non-adjacent regions), the final masks are pairwise
disjoint and their union equals the union of the input masks. -/
theorem C4_partition_invariant (F : FreeEnergylnPi α npts nf) (o : Option ℕ) (efac : α)
    (force : Bool) (st : MergeState α nf npts)
    (hrun : mergeRegionsFull F o efac force = Except.ok (st, true))
    (hdisj : ∀ i j : Fin nf, i ≠ j → Disjoint (F.masks i) (F.masks j)) :
    List.Pairwise (fun s t => Disjoint s t) (finalMasks st)
    ∧ unionList (finalMasks st) = unionList ((List.finRange nf).map F.masks) := by
  obtain ⟨hnd', hdj', hun'⟩ := mergeLoopAux_partition (fun k => w_min F k) efac force
    (o.getD nf) nf (initState F) true st hrun (List.nodup_finRange nf)
    (fun i => w_tran_diag F i) (fun i _ j _ hij => hdisj i j hij)
  refine ⟨?_, hun'⟩
  have hpw : List.Pairwise (fun a c => Disjoint (st.maskOf a) (st.maskOf c)) st.alive :=
    pairwise_of_forall_of_nodup hnd' hdj'
  exact List.pairwise_map.mpr hpw

/-- Witness for the amended claim C4: the `FE_B` run merges two adjacent
disjoint regions at finite cost and the output masks partition the input
union. -/
theorem C4_partition_invariant_witness :
    List.Pairwise (fun s t => Disjoint s t) (finalMasks outB.1)
    ∧ unionList (finalMasks outB.1) = unionList ((List.finRange 2).map FE_B.masks) :=
  C4_partition_invariant FE_B (some 1) 1 true outB.1 rfl (by decide)

/-- Claim C5: for every pair of distinct regions, `w_tran[i, j]` is read
off the boundary overlap exactly as the spec says: the overlap is the
bitwise AND of the thick boundaries of masks `i` and `j` restricted to
points inside mask `i` OR mask `j`, and the entry is the negative of the
maximum field value over that overlap, `+∞` when the overlap is empty. -/
theorem C5_boundary_overlap_w_tran (F : FreeEnergylnPi α npts nf) (i j : Fin nf)
    (hij : i ≠ j) :
    w_tran F i j =
      if h : ((boundary F i ∩ boundary F j) ∩ (F.masks i ∪ F.masks j)).Nonempty then
        ((-(((boundary F i ∩ boundary F j) ∩ (F.masks i ∪ F.masks j)).sup' h F.data) : α)
          : WithTop α)
      else ⊤ := by
  rcases lt_or_gt_of_ne hij with hlt | hgt
  · simp only [w_tran]
    rw [if_neg hij, if_pos hlt]
    rfl
  · simp only [w_tran]
    rw [if_neg hij, if_neg (lt_asymm hgt), boundaries_overlap_comm]
    rfl

/-- Witness for claim C5 at the adjacent pair of `FE_B`. -/
theorem C5_boundary_overlap_w_tran_witness :
    w_tran FE_B 0 1 =
      if h : ((boundary FE_B 0 ∩ boundary FE_B 1) ∩ (FE_B.masks 0 ∪ FE_B.masks 1)).Nonempty then
        ((-(((boundary FE_B 0 ∩ boundary FE_B 1)
            ∩ (FE_B.masks 0 ∪ FE_B.masks 1)).sup' h FE_B.data) : ℤ) : WithTop ℤ)
      else ⊤ :=
  C5_boundary_overlap_w_tran FE_B 0 1 (by decide)

/-- Claim C6: the transition matrix is always symmetric — the initially
computed `w_tran`, and the reduced matrix returned after any normal
`merge_regions` run (any number of merge steps). -/
theorem C6_w_tran_symmetric (F : FreeEnergylnPi α npts nf) (o : Option ℕ) (efac : α)
    (force : Bool) (st : MergeState α nf npts)
    (h : merge_regions F o efac force = Except.ok st) :
    (∀ i j, w_tran F i j = w_tran F j i)
    ∧ ∀ a b, finalWtran st a b = finalWtran st b a := by
  obtain ⟨bflag, hfull⟩ := merge_regions_ok h
  refine ⟨fun i j => w_tran_symm F i j, ?_⟩
  have hsym := mergeLoopAux_symm (fun i => w_min F i) efac force (o.getD nf) nf
    (initState F) true st bflag hfull (fun i j => w_tran_symm F i j)
  intro a b
  exact hsym _ _

/-- Witness for claim C6 on the `FE_C` break run, whose two regions both
survive. -/
theorem C6_w_tran_symmetric_witness :
    w_tran FE_C 0 1 = w_tran FE_C 1 0
    ∧ finalWtran (initState FE_C) ⟨0, by decide⟩ ⟨1, by decide⟩
        = finalWtran (initState FE_C) ⟨1, by decide⟩ ⟨0, by decide⟩ := by
  have h := C6_w_tran_symmetric FE_C (some 2) 1 true (initState FE_C) rfl
  exact ⟨h.1 0 1, h.2 ⟨0, by decide⟩ ⟨1, by decide⟩⟩

/-- Claim C7: merging an already-satisfied configuration is the identity —
when the live count is within `nfeature_max` and the minimum `delta_w`
strictly exceeds `efac`, the loop breaks in its first round and the
returned masks are exactly the input masks (any `force`). -/
theorem C7_merge_idempotent (F : FreeEnergylnPi α npts nf) (o : Option ℕ) (efac : α)
    (force : Bool)
    (h1 : (efac : WithTop α) < minDe (initState F).wtran (fun i => w_min F i))
    (h2 : nf ≤ o.getD nf) :
    merge_regions F o efac force = Except.ok (initState F)
    ∧ finalMasks (initState F) = (List.finRange nf).map F.masks := by
  refine ⟨?_, rfl⟩
  have hcond : (efac : WithTop α) < minDe (initState F).wtran (fun i => w_min F i)
      ∧ (force = false ∨ (initState F).alive.length ≤ o.getD nf) := by
    refine ⟨h1, Or.inr ?_⟩
    show (List.finRange nf).length ≤ o.getD nf
    rw [List.length_finRange]
    exact h2
  unfold merge_regions mergeRegionsFull
  rw [mergeLoopAux_break (fun i => w_min F i) efac force (o.getD nf) (initState F) hcond nf true]
  rfl

/-- Witness for claim C7: `FE_C` with `nfeature_max = 2` and `efac = 1`
(all barriers infinite) returns its two input masks unchanged. -/
theorem C7_merge_idempotent_witness :
    merge_regions FE_C (some 2) 1 true = Except.ok (initState FE_C)
    ∧ finalMasks (initState FE_C) = (List.finRange 2).map FE_C.masks :=
  C7_merge_idempotent FE_C (some 2) 1 true (by decide) (by decide)

/-- Claim C8, counterexample: on `FE_D` the first merge step contracts
regions 0 and 1 (cost 1); afterwards the minimum cost over the remaining
pairs is 2 (the merged blob against region 2), strictly below 40, the
pre-merge minimum among the pairs not involving the merged regions — so
the post-merge minimum is NOT `≥` the pre-merge minimum over unrelated
pairs, refuting the claim as stated. -/
theorem C8_counterexample :
    mergeLoopAux (fun i => w_min FE_D i) 10 true 1 1 (initState FE_D) true
      = Except.ok (stD1, true)
    ∧ stD1.alive = ([0, 2, 3] : List (Fin 4))
    ∧ minDe stD1.wtran (fun i => w_min FE_D i)
        < minDeExcl (initState FE_D).wtran (fun i => w_min FE_D i) 0 1 :=
  ⟨rfl, by decide, by decide⟩

/-- Claim C8, amended: a single merge step (with the post-swap convention
`w_min[keep] ≤ w_min[kill]`, over a symmetric matrix) never lowers the
GLOBAL minimum merge cost: the pre-merge minimum of `delta_w` over all
pairs is a lower bound for the whole post-merge matrix, hence for its
minimum; and the entries of pairs not involving the two merged regions are
unchanged.  The post-merge minimum may however drop below the pre-merge
minimum restricted to pairs not involving the merged regions, as the
counterexample shows. -/
theorem C8_merge_cost_monotonicity (wm : Fin nf → α) (st : MergeState α nf npts)
    (keep kill : Fin nf)
    (hsym : ∀ i j, st.wtran i j = st.wtran j i) (hwm : wm keep ≤ wm kill) :
    minDe st.wtran wm ≤ minDe (mergeStepUpdate keep kill st).wtran wm
    ∧ (∀ i j, minDe st.wtran wm ≤ deMat (mergeStepUpdate keep kill st).wtran wm i j)
    ∧ (∀ i j, i ≠ keep → i ≠ kill → j ≠ keep → j ≠ kill →
        deMat (mergeStepUpdate keep kill st).wtran wm i j = deMat st.wtran wm i j) := by
  have hmain : ∀ i j, minDe st.wtran wm ≤ deMat (mergeStepUpdate keep kill st).wtran wm i j := by
    intro i j
    by_cases hkl : i = kill ∨ j = kill
    · unfold mergeStepUpdate deMat
      dsimp only
      rw [if_pos hkl, WithTop.map_top]
      exact le_top
    · by_cases hike : i = keep
      · by_cases hjke : j = keep
        · unfold mergeStepUpdate deMat
          dsimp only
          rw [if_neg hkl, if_pos hike, if_pos hjke, WithTop.map_top]
          exact le_top
        · unfold mergeStepUpdate deMat
          dsimp only
          rw [if_neg hkl, if_pos hike, if_neg hjke, hike, mapSub_min]
          refine le_min ?_ ?_
          · exact minDe_le st.wtran wm keep j
          · exact le_trans (minDe_le st.wtran wm kill j) (mapSub_anti hwm)
      · by_cases hjke : j = keep
        · unfold mergeStepUpdate deMat
          dsimp only
          rw [if_neg hkl, if_neg hike, if_pos hjke, if_neg hike, hsym keep i, hsym kill i,
            mapSub_min]
          refine le_min ?_ ?_
          · exact minDe_le st.wtran wm i keep
          · exact minDe_le st.wtran wm i kill
        · unfold mergeStepUpdate deMat
          dsimp only
          rw [if_neg hkl, if_neg hike, if_neg hjke]
          exact minDe_le st.wtran wm i j
  refine ⟨Finset.le_inf fun p _ => hmain p.1 p.2, hmain, ?_⟩
  intro i j hike hikl hjke hjkl
  unfold mergeStepUpdate deMat
  dsimp only
  rw [if_neg (not_or.mpr ⟨hikl, hjkl⟩), if_neg hike, if_neg hjke]

/-- Witness for the amended claim C8 at the first merge step of `FE_D`. -/
theorem C8_merge_cost_monotonicity_witness :
    minDe (initState FE_D).wtran (fun i => w_min FE_D i)
        ≤ minDe (mergeStepUpdate 0 1 (initState FE_D)).wtran (fun i => w_min FE_D i)
    ∧ deMat (mergeStepUpdate 0 1 (initState FE_D)).wtran (fun i => w_min FE_D i) 2 3
        = deMat (initState FE_D).wtran (fun i => w_min FE_D i) 2 3 := by
  have h := C8_merge_cost_monotonicity (fun i => w_min FE_D i) (initState FE_D) 0 1
    (fun i j => w_tran_symm FE_D i j) (by decide)
  exact ⟨h.1, h.2.2 2 3 (by decide) (by decide) (by decide) (by decide)⟩
